import Mathlib

/-!
Verification development for `draw_jobs.py`, a script that parses PBS
`qstat -f` output into job records and renders a Gantt-style node/schedule
chart.

Modelling conventions:
* Python strings are modelled as `List Char` (`PyStr`); the script only
  splits on single-character separators, so a single-character split models
  `str.split(sep)` exactly.  Only ASCII digits are considered for `\d` and
  `int()` (the script's inputs are ASCII).
* Wall-clock instants (`datetime`) are modelled as abstract integers
  (seconds); every call of `datetime.now()` during one run is modelled by a
  single parameter `now`, and `timedelta` values by their total seconds.
* `datetime.strptime(s, "%c")` is locale dependent; it is modelled by an
  explicit parameter `stp : PyStr → Option Int` (`none` models a raised
  `ValueError`).
* Fallible Python code (uncaught `ValueError` from `int()`, `AttributeError`
  from a failed regex match in `interval`, `ValueError` from `str.index` /
  `list.index`) is modelled with `Except Unit` / a `raise` constructor.
* The matplotlib calls are modelled by the geometry they receive: the
  renderer model returns the list of rectangles added per job.  Colors,
  annotations and the figure itself carry no claim-relevant data and are
  omitted.
-/

set_option maxRecDepth 4096

namespace DrawJobs

/-- Python strings, modelled as lists of characters. -/
abbrev PyStr := List Char

/-- The whitespace characters stripped by Python's `str.strip()`. -/
def isPySpace (c : Char) : Bool :=
  c = ' ' || c = '\t' || c = '\n' || c = '\r' || c = '\x0b' || c = '\x0c'

/-- Python `s.strip()` (no argument): strip whitespace from both ends. -/
def pyStripWs (l : PyStr) : PyStr :=
  ((l.dropWhile isPySpace).reverse.dropWhile isPySpace).reverse

/-- Python `s.strip(cs)`: strip any characters of the set `cs` from both ends. -/
def pyStripChars (cs : PyStr) (l : PyStr) : PyStr :=
  ((l.dropWhile (cs.contains ·)).reverse.dropWhile (cs.contains ·)).reverse

/-- `leadsWith sub s` is true when `sub` is an initial segment of `s`. -/
def leadsWith : PyStr → PyStr → Bool
  | [], _ => true
  | _ :: _, [] => false
  | a :: as, b :: bs => a = b && leadsWith as bs

/-- Helper for `pyFind`: search for `sub` starting at offset `i`. -/
def pyFindAux (sub : PyStr) : PyStr → Nat → Int
  | s, i =>
    if leadsWith sub s then (i : Int)
    else
      match s with
      | [] => -1
      | _ :: t => pyFindAux sub t (i + 1)

/-- Python `s.find(sub)`: index of the first occurrence of `sub`, else `-1`. -/
def pyFind (sub s : PyStr) : Int := pyFindAux sub s 0

/-- Python `s.split(c)` for a single-character separator (`"".split(c) = [""]`). -/
def pySplitChar (c : Char) : PyStr → List PyStr
  | [] => [[]]
  | x :: xs =>
    match pySplitChar c xs with
    | [] => [[x]]
    | g :: gs => if x = c then [] :: g :: gs else (x :: g) :: gs

/-- Decimal value of a digit string (leading zeros allowed). -/
def digsVal (l : PyStr) : Nat :=
  l.foldl (fun a c => 10 * a + (c.toNat - 48)) 0

/-- Digit run of a Python int literal, allowing single `_` separators between
digits (the first character is known to be a digit when this is called). -/
def digsUnd : Nat → PyStr → Option Nat
  | a, [] => some a
  | a, c :: cs =>
    if c.isDigit then digsUnd (10 * a + (c.toNat - 48)) cs
    else if c = '_' then
      match cs with
      | d :: _ => if d.isDigit then digsUnd a cs else none
      | [] => none
    else none

/-- Python `int(s)` on a string: optional surrounding whitespace, optional
sign, then a nonempty digit sequence (with optional single underscores
between digits).  `none` models a raised `ValueError`. -/
def pyInt (l : PyStr) : Option Int :=
  let t := pyStripWs l
  match t with
  | '+' :: body => (pyIntBody body).map (fun n => (n : Int))
  | '-' :: body => (pyIntBody body).map (fun n => -(n : Int))
  | body => (pyIntBody body).map (fun n => (n : Int))
where
  /-- Unsigned body of an int literal. -/
  pyIntBody (body : PyStr) : Option Nat :=
    match body with
    | c :: _ => if c.isDigit then digsUnd 0 body else none
    | [] => none

/-- Python `xs.index(x)` on a list: index of the first occurrence, raising
`ValueError` (modelled as `Except.error ()`) when absent. -/
def listIndex (xs : List PyStr) (x : PyStr) : Except Unit Nat :=
  match xs with
  | [] => .error ()
  | y :: ys => if y = x then .ok 0 else (listIndex ys x).map (· + 1)

/-- Python `s.index(sub)` on strings: like `find` but raising `ValueError`
(modelled as `Except.error ()`) when the substring is absent. -/
def pyStrIndexE (sub s : PyStr) : Except Unit Int :=
  if pyFind sub s = -1 then .error () else .ok (pyFind sub s)

/-! ### `interval`: the walltime parser

Python source:
```
def interval(s):
    d = re.match(r'((?P<days>\d+) days, )?(?P<hours>\d+):'
                 r'(?P<minutes>\d+):(?P<seconds>\d+)', str(s)).groupdict(0)
    return timedelta(**dict(((key, int(value)) for key, value in d.items())))
```
`re.match` anchors at the start only; the optional greedy group
`(\d+ days, )?` is tried first and the engine falls back to the empty
alternative when the remainder fails.  A shorter-than-maximal `\d+` can never
make ` days, ` match (the following character would still be a digit, not a
space), so taking the maximal digit run is faithful.  The result is the
`timedelta`'s total seconds. -/

/-- The `(\d+):(\d+):(\d+)` part, matched as a prefix of `s`:
`HH*3600 + MM*60 + SS` seconds. -/
def parseHMS (s : PyStr) : Option Nat :=
  let h := s.takeWhile Char.isDigit
  match h, s.drop h.length with
  | _ :: _, ':' :: r2 =>
    let m := r2.takeWhile Char.isDigit
    match m, r2.drop m.length with
    | _ :: _, ':' :: r4 =>
      match r4.takeWhile Char.isDigit with
      | [] => none
      | sec => some (digsVal h * 3600 + digsVal m * 60 + digsVal sec)
    | _, _ => none
  | _, _ => none

/-- The whole pattern with the `(\d+) days, ` group present. -/
def matchDays (s : PyStr) : Option Nat :=
  let d := s.takeWhile Char.isDigit
  if d ≠ [] && leadsWith (" days, ".toList) (s.drop d.length) then
    (parseHMS ((s.drop d.length).drop 7)).map (fun v => digsVal d * 86400 + v)
  else none

/-- `interval`: total seconds of the parsed `timedelta`; `none` models the
`AttributeError` raised when the regex does not match (`.groupdict` on
`None`). -/
def interval (s : PyStr) : Option Nat :=
  match matchDays s with
  | some v => some v
  | none => parseHMS s

/-! ### The `Job` record and the `qstat -f` block parser -/

/-- `Job.job_id`: the class default is the integer `0`; line 52 replaces it by
the list of `':'`-split fragments of the block's first line, and line 53 by a
plain (stripped) string when that list has exactly two elements. -/
inductive JobId where
  | intId : Int → JobId
  | fragments : List PyStr → JobId
  | strId : PyStr → JobId
deriving DecidableEq

/-- The `Job` class.  `walltime` is the `timedelta` in seconds;
`eligible_time` and `start_time` are abstract instants (seconds). -/
structure Job where
  job_id : JobId
  job_name : PyStr
  job_state : PyStr
  job_owner : PyStr
  queue : PyStr
  nodect : Int
  walltime : Nat
  eligible_time : Int
  exec_vnode : List PyStr
  start_time : Int
deriving DecidableEq

/-- The class-level defaults of `Job` (the two `datetime.now()` defaults are
the abstract `now`). -/
def initJob (now : Int) : Job :=
  { job_id := .intId 0
    job_name := []
    job_state := []
    job_owner := []
    queue := []
    nodect := 0
    walltime := 0
    eligible_time := now
    exec_vnode := []
    start_time := now }

/-- A character allowed in the attribute-name group `[^ =]*` of `VAR_RE`. -/
def varChar (c : Char) : Bool := !(c = ' ' || c = '=')

/-- `re.match(VAR_RE, line)` for `VAR_RE = "    ([^ =]*) = "`, returning the
attribute name and the rest of the line after the matched prefix
(`line.replace(varmatch.group(0), '', 1)` removes exactly that prefix, since
the match is anchored at position 0).  Backtracking cannot help the regex: a
shorter-than-maximal `[^ =]*` is followed by another `[^ =]` character, never
by `' '`, so only the maximal run can be followed by `" = "`. -/
def varMatch (line : PyStr) : Option (PyStr × PyStr) :=
  match line with
  | ' ' :: ' ' :: ' ' :: ' ' :: rest =>
    let w := rest.takeWhile varChar
    match rest.drop w.length with
    | ' ' :: '=' :: ' ' :: rest2 => some (w, rest2)
    | _ => none
  | _ => none

/-- The mutable locals of `job_from_qstat`'s line loop: the job being built,
the booleans `exec_vnode` (renamed `exec_flag`), `has_stime` and `in_vnode`,
and the accumulator `est_vnode`. -/
structure PState where
  j : Job
  exec_flag : Bool
  has_stime : Bool
  in_vnode : Bool
  est_vnode : PyStr
deriving DecidableEq

/-- Outcome of processing one line of the loop body: an uncaught exception
(`raise`), the early `return None` (`sentinel`), or the next state. -/
inductive StepRes where
  | raise : StepRes
  | sentinel : StepRes
  | next : PState → StepRes
deriving DecidableEq

/-- The attribute names the `elif` chain of lines 66-102 recognizes. -/
inductive AttrKey where
  | jobNameK | jobOwnerK | jobStateK | queueK | nodectK | walltimeK
  | eligibleK | stimeK | estStartK | execVnodeK | estExecVnodeK | otherK
deriving DecidableEq

/-- The `elif` chain's dispatch on the attribute name, in source order (the
recognized names are mutually distinct, so the order is immaterial). -/
def keyOf (varname : PyStr) : AttrKey :=
  if varname = "Job_Name".toList then .jobNameK
  else if varname = "Job_Owner".toList then .jobOwnerK
  else if varname = "job_state".toList then .jobStateK
  else if varname = "queue".toList then .queueK
  else if varname = "Resource_List.nodect".toList then .nodectK
  else if varname = "Resource_List.walltime".toList then .walltimeK
  else if varname = "eligible_time".toList then .eligibleK
  else if varname = "stime".toList then .stimeK
  else if varname = "estimated.start_time".toList then .estStartK
  else if varname = "exec_vnode".toList then .execVnodeK
  else if varname = "estimated.exec_vnode".toList then .estExecVnodeK
  else .otherK

/-- The `elif` bodies of lines 66-102, applied to the state with `in_vnode`
already cleared (line 63). -/
def applyAttr (stp : PyStr → Option Int) (now : Int) (nt : PyStr) (st1 : PState)
    (key : AttrKey) (rest : PyStr) : StepRes :=
  match key with
  | .jobNameK => .next { st1 with j := { st1.j with job_name := rest } }
  | .jobOwnerK => .next { st1 with j := { st1.j with job_owner := (pySplitChar '@' rest).headD [] } }
  | .jobStateK => .next { st1 with j := { st1.j with job_state := rest } }
  | .queueK =>
    if pyFind nt rest = -1 then .sentinel
    else .next { st1 with j := { st1.j with queue := rest } }
  | .nodectK =>
    match pyInt rest with
    | none => .raise
    | some n => .next { st1 with j := { st1.j with nodect := n } }
  | .walltimeK =>
    match interval rest with
    | none => .raise
    | some w => .next { st1 with j := { st1.j with walltime := w } }
  | .eligibleK =>
    match stp rest with
    | some t => .next { st1 with j := { st1.j with eligible_time := t } }
    | none => .next { st1 with j := { st1.j with eligible_time := now } }
  | .stimeK =>
    match stp rest with
    | some t => .next { st1 with has_stime := true, j := { st1.j with start_time := t } }
    | none => .next { st1 with has_stime := true }
  | .estStartK =>
    if st1.has_stime then .next st1
    else
      match stp rest with
      | some t => .next { st1 with j := { st1.j with start_time := t } }
      | none => .next st1
  | .execVnodeK => .next { st1 with in_vnode := true, exec_flag := true, est_vnode := rest }
  | .estExecVnodeK =>
    if st1.exec_flag then .next st1
    else .next { st1 with in_vnode := true, est_vnode := rest }
  | .otherK => .next st1

/-- One iteration of the loop in `job_from_qstat` (lines 59-104).
`stp` models `datetime.strptime(·, "%c")`, `now` models `datetime.now()`,
`nt` is the `NODE_TYPE` constant. -/
def step (stp : PyStr → Option Int) (now : Int) (nt : PyStr) (st : PState)
    (line : PyStr) : StepRes :=
  match varMatch line with
  | some (varname, rest) =>
    applyAttr stp now nt { st with in_vnode := false } (keyOf varname) rest
  | none =>
    if st.in_vnode then .next { st with est_vnode := st.est_vnode ++ pyStripWs line }
    else .next st

/-- The loop over the processed lines, short-circuiting on `raise` and on the
early `return None` (`.ok none`). -/
def runLines (stp : PyStr → Option Int) (now : Int) (nt : PyStr) :
    PState → List PyStr → Except Unit (Option PState)
  | st, [] => .ok (some st)
  | st, l :: ls =>
    match step stp now nt st l with
    | .raise => .error ()
    | .sentinel => .ok none
    | .next st1 => runLines stp now nt st1 ls

/-- Lines 106-108: `[s.split(':')[0].strip('(') for s in est_vnode.split('+')]`,
then the single-empty-entry normalization. -/
def cleanVnode (ev : PyStr) : List PyStr :=
  let l := (pySplitChar '+' ev).map (fun s => pyStripChars ['('] ((pySplitChar ':' s).headD []))
  if l = [[]] then [] else l

/-- Lines 52-53: the job id computed from the block's first line. -/
def jobIdOf (firstLine : PyStr) : JobId :=
  let parts := pySplitChar ':' firstLine
  if parts.length = 2 then .strId (pyStripWs (parts.getD 1 [])) else .fragments parts

/-- The lines the loop actually visits: `job_info.split("\n")[1:-1]`
(the first and last elements of the split are dropped). -/
def processedLines (job_info : PyStr) : List PyStr :=
  ((pySplitChar '\n' job_info).drop 1).dropLast

/-- The parser state before the loop starts. -/
def initState (now : Int) (job_info : PyStr) : PState :=
  { j := { initJob now with job_id := jobIdOf ((pySplitChar '\n' job_info).headD []) }
    exec_flag := false
    has_stime := false
    in_vnode := false
    est_vnode := [] }

/-- Line 106 and the return: install the cleaned node list into the job. -/
def finalize (st : PState) : Job :=
  { st.j with exec_vnode := cleanVnode st.est_vnode }

/-- `job_from_qstat`: `.error ()` models an uncaught exception, `.ok none`
the `return None` sentinel, `.ok (some j)` a returned `Job`. -/
def job_from_qstat (stp : PyStr → Option Int) (now : Int) (nt : PyStr)
    (job_info : PyStr) : Except Unit (Option Job) :=
  match runLines stp now nt (initState now job_info) (processedLines job_info) with
  | .error () => .error ()
  | .ok none => .ok none
  | .ok (some st) => .ok (some (finalize st))

/-- The `__main__` comprehension `[job for job in get_xfua_jobs() if job is
not None]`: keep the parsed jobs, silently dropping the `None` sentinels. -/
def callerKeep (l : List (Option Job)) : List Job := l.filterMap id

/-! ### The renderer (`plot_job_schedule`)

Only the claim-relevant geometry is modelled: the node inventory is the list
of node names in iteration order (`list(nodes.keys())`), and the model
returns, per drawn job, the rectangles added by `ax.add_patch`. -/

/-- `itertools.count()` combined with the key lambda `n - next(c)`: pair each
element with its key, the counter starting at `c`. -/
def keyFrom (c : Nat) : List Nat → List (Int × Nat)
  | [] => []
  | n :: ns => ((n : Int) - (c : Int), n) :: keyFrom (c + 1) ns

/-- The length of `dropWhile` never exceeds the input's length. -/
theorem dropWhile_len_le (p : α → Bool) : (l : List α) → (l.dropWhile p).length ≤ l.length
  | [] => le_refl _
  | x :: xs => by
    rw [List.dropWhile_cons]
    split
    · exact le_trans (dropWhile_len_le p xs) (Nat.le_succ _)
    · exact le_refl _

/-- `itertools.groupby` on keyed elements: maximal runs of equal adjacent
keys; each group is returned as its first element plus the remaining ones. -/
def groupPairs : List (Int × Nat) → List (Nat × List Nat)
  | [] => []
  | (k, n) :: rest =>
    (n, (rest.takeWhile (fun p => p.1 = k)).map Prod.snd) ::
      groupPairs (rest.dropWhile (fun p => p.1 = k))
termination_by l => l.length
decreasing_by
  simp only [List.length_cons]
  exact Nat.lt_succ_of_le (dropWhile_len_le _ _)

/-- `r = list(v); (r[0], r[-1])` for one group. -/
def toRange (g : Nat × List Nat) : Nat × Nat := (g.1, g.2.getLastD g.1)

/-- Python `sorted` on an integer list (a stable comparison sort; on a total
order such as `Nat` any such sort computes the same list). -/
def pySorted (l : List Nat) : List Nat := l.insertionSort (· ≤ ·)

/-- Line 178: `groupby(sorted(i_nodes), lambda n, c=count(): n-next(c))`,
with each group turned into its `(r[0], r[-1])` bounds. -/
def pyRanges (i_nodes : List Nat) : List (Nat × Nat) :=
  (groupPairs (keyFrom 0 (pySorted i_nodes))).map toRange

/-- One rectangle handed to `patches.Rectangle((x, y), w, h)`.  `x` and `w`
are hours (exact rationals in the model, floats in the script). -/
structure Rect where
  x : ℚ
  y : Nat
  w : ℚ
  h : Int
deriving DecidableEq

/-- `(t - datetime.now()).total_seconds()/3600` with the abstract `now`
already subtracted: seconds to fractional hours. -/
def hoursQ (secs : Int) : ℚ := (secs : ℚ) / 3600

/-- The inner `for k,v in ranges` loop: one rectangle per contiguous run. -/
def rectsOfRanges (tstart tend : ℚ) (ranges : List (Nat × Nat)) : List Rect :=
  ranges.map (fun r => { x := tstart, y := r.1, w := tend - tstart, h := (r.2 : Int) - (r.1 : Int) + 1 })

/-- The filter on line 163: a job is drawn when its node list is nonempty and
its state is not `'H'`. -/
def jobDrawn (job : Job) : Bool :=
  decide (job.exec_vnode ≠ []) && decide (job.job_state ≠ "H".toList)

/-- The list comprehension on line 164:
`[list(nodes.keys()).index(nodename) for nodename in job.exec_vnode]`,
raising on the first absent node name. -/
def indexList (nodes : List PyStr) : List PyStr → Except Unit (List Nat)
  | [] => .ok []
  | nm :: rest =>
    match listIndex nodes nm with
    | .error e => .error e
    | .ok i =>
      match indexList nodes rest with
      | .error e => .error e
      | .ok is => .ok (i :: is)

/-- Lines 164-184 for one drawn job: row indices of its nodes
(`list.index` raising on absence), time offsets in hours, and the rectangles
of the grouped runs. -/
def jobRects (nodes : List PyStr) (now : Int) (job : Job) : Except Unit (List Rect) :=
  match indexList nodes job.exec_vnode with
  | .error e => .error e
  | .ok i_nodes =>
    .ok (rectsOfRanges (hoursQ (job.start_time - now))
      (hoursQ (job.start_time + (job.walltime : Int) - now)) (pyRanges i_nodes))

/-- The `for i, job in enumerate(jobs)` loop of lines 162-187: the list of
(job, its rectangles) for every drawn job, an exception aborting the run. -/
def plotJobRects (nodes : List PyStr) (now : Int) : List Job → Except Unit (List (Job × List Rect))
  | [] => .ok []
  | job :: rest =>
    if jobDrawn job then
      match jobRects nodes now job with
      | .error e => .error e
      | .ok rs =>
        match plotJobRects nodes now rest with
        | .error e => .error e
        | .ok out => .ok ((job, rs) :: out)
    else plotJobRects nodes now rest

/-- Line 126: `len(jobs) > 0 and jobs[0].queue.index('knl') >= 0`.
`str.index` raises `ValueError` when the substring is absent, so the guard
either evaluates to `false` (no jobs), raises, or evaluates to `true`. -/
def knlCheck (jobs : List Job) : Except Unit Bool :=
  match jobs with
  | [] => .ok false
  | j :: _ =>
    match pyStrIndexE ("knl".toList) j.queue with
    | .error e => .error e
    | .ok i => .ok (decide (i ≥ 0))

/-! ### Spec-side definitions (stated from the specification's words, for
refinement comparisons) -/

/-- Modelled from the spec: the maximal contiguous runs of a sorted index
list, as inclusive `(lo, hi)` bounds — helper carrying the current run. -/
def runsAux (start cur : Nat) : List Nat → List (Nat × Nat)
  | [] => [(start, cur)]
  | y :: ys => if y = cur + 1 then runsAux start y ys else (start, cur) :: runsAux y y ys

/-- Modelled from the spec: "collapse the sorted row indices into maximal
contiguous runs". -/
def runsOf : List Nat → List (Nat × Nat)
  | [] => []
  | x :: xs => runsAux x x xs

/-- The claim's words for one node-assignment entry: "the text before the
first `':'` with a leading `'('` stripped" (exactly one leading paren). -/
def claimEntryClean (e : PyStr) : PyStr :=
  match e.takeWhile (fun c => c ≠ ':') with
  | '(' :: r => r
  | t => t

/-- The claim's words for the whole field: split on `'+'` and clean each
entry; the empty-string field yields the empty list. -/
def claimClean (f : PyStr) : List PyStr :=
  if f = [] then [] else (pySplitChar '+' f).map claimEntryClean

/-- The amended description of one entry: the text before the first `':'`
with all `'('` characters stripped from both ends. -/
def amendedEntryClean (e : PyStr) : PyStr :=
  (((e.takeWhile (fun c => c ≠ ':')).dropWhile (fun c => c = '(')).reverse.dropWhile
    (fun c => c = '(')).reverse

/-! ### Attribute-line constructors (well-formed `    key = value` lines) -/

/-- A `    queue = v` line. -/
def queueLine (v : PyStr) : PyStr := "    queue = ".toList ++ v

/-- A `    stime = v` line. -/
def stimeLine (v : PyStr) : PyStr := "    stime = ".toList ++ v

/-- A `    estimated.start_time = v` line. -/
def estStartLine (v : PyStr) : PyStr := "    estimated.start_time = ".toList ++ v

/-- A `    exec_vnode = v` line. -/
def execLine (v : PyStr) : PyStr := "    exec_vnode = ".toList ++ v

/-- A `    estimated.exec_vnode = v` line. -/
def estExecLine (v : PyStr) : PyStr := "    estimated.exec_vnode = ".toList ++ v

/-- A `    eligible_time = v` line. -/
def eligLine (v : PyStr) : PyStr := "    eligible_time = ".toList ++ v

/-- A `    Job_Name = v` line. -/
def nameLine (v : PyStr) : PyStr := "    Job_Name = ".toList ++ v

/-- A line is vnode-neutral when it is an attribute line whose name is
neither `exec_vnode` nor `estimated.exec_vnode`: processing it can never
touch the `est_vnode` accumulator or the `exec_flag` boolean. -/
def vnodeNeutral (line : PyStr) : Bool :=
  match varMatch line with
  | some (n, _) => keyOf n ≠ AttrKey.execVnodeK && keyOf n ≠ AttrKey.estExecVnodeK
  | none => false

/-! ### Generic list lemmas -/

/-- `takeWhile` walks through a block of satisfying elements. -/
theorem takeWhile_app {p : Char → Bool} :
    ∀ {d : PyStr}, (∀ c ∈ d, p c = true) → ∀ r : PyStr,
      (d ++ r).takeWhile p = d ++ r.takeWhile p
  | [], _, r => rfl
  | x :: xs, h, r => by
    have hx : p x = true := h x (List.mem_cons_self x xs)
    simp only [List.cons_append, List.takeWhile_cons, hx, if_true]
    rw [takeWhile_app (fun c hc => h c (List.mem_cons_of_mem x hc)) r]

/-- `takeWhile` keeps a list all of whose elements satisfy the predicate. -/
theorem takeWhile_all {p : Char → Bool} {l : PyStr} (h : ∀ c ∈ l, p c = true) :
    l.takeWhile p = l := by
  have := takeWhile_app h []
  simpa using this

/-- A list is an initial segment of itself followed by anything. -/
theorem leadsWith_app : ∀ (a b : PyStr), leadsWith a (a ++ b) = true
  | [], _ => rfl
  | x :: xs, b => by simp [leadsWith, leadsWith_app xs b]

/-- `pySplitChar` never returns the empty list. -/
theorem pySplitChar_ne_nil (c : Char) : ∀ l : PyStr, pySplitChar c l ≠ []
  | [] => by simp [pySplitChar]
  | x :: xs => by
    simp only [pySplitChar]
    split
    · simp
    · split <;> simp

/-- The number of fragments of a split is the separator count plus one. -/
theorem pySplitChar_length (c : Char) :
    ∀ l : PyStr, (pySplitChar c l).length = l.count c + 1
  | [] => by simp [pySplitChar]
  | x :: xs => by
    have ih := pySplitChar_length c xs
    simp only [pySplitChar]
    match h : pySplitChar c xs with
    | [] => exact absurd h (pySplitChar_ne_nil c xs)
    | g :: gs =>
      rw [h] at ih
      by_cases hx : x = c
      · simp [hx, ih, List.count_cons]
      · simp only [if_neg hx, List.length_cons] at ih ⊢
        rw [ih, List.count_cons]
        simp [Ne.symm hx, hx]

/-- Splitting a list that does not contain the separator yields the list. -/
theorem pySplitChar_not_mem {c : Char} : ∀ {l : PyStr}, c ∉ l → pySplitChar c l = [l]
  | [], _ => rfl
  | x :: xs, h => by
    have hx : x ≠ c := fun e => h (e ▸ List.mem_cons_self x xs)
    have ih := pySplitChar_not_mem (fun hm => h (List.mem_cons_of_mem x hm))
    simp only [pySplitChar, List.append_eq, ih, if_neg hx]

/-- Splitting around the first separator occurrence. -/
theorem pySplitChar_first {c : Char} :
    ∀ {a : PyStr}, c ∉ a → ∀ b : PyStr, pySplitChar c (a ++ c :: b) = a :: pySplitChar c b
  | [], _, b => by
    simp only [List.nil_append, pySplitChar]
    match h : pySplitChar c b with
    | [] => exact absurd h (pySplitChar_ne_nil c b)
    | g :: gs => simp
  | x :: xs, h, b => by
    have hx : x ≠ c := fun e => h (e ▸ List.mem_cons_self x xs)
    have ih := pySplitChar_first (fun hm => h (List.mem_cons_of_mem x hm)) b
    simp only [List.cons_append, pySplitChar, List.append_eq, ih, if_neg hx]

/-! ### Characterizations of `step` on well-formed attribute lines -/

/-- Processing a `queue` line: the sentinel is returned exactly when the
value does not contain the node-type substring. -/
theorem step_queueLine (stp : PyStr → Option Int) (now : Int) (nt : PyStr)
    (st : PState) (v : PyStr) :
    step stp now nt st (queueLine v) =
      if pyFind nt v = -1 then .sentinel
      else .next { st with in_vnode := false, j := { st.j with queue := v } } := rfl

/-- Processing a `stime` line: `has_stime` is set; the start time is the
parsed value when parsing succeeds and is left unchanged otherwise. -/
theorem step_stimeLine (stp : PyStr → Option Int) (now : Int) (nt : PyStr)
    (st : PState) (v : PyStr) :
    step stp now nt st (stimeLine v) =
      match stp v with
      | some t => .next { st with in_vnode := false, has_stime := true, j := { st.j with start_time := t } }
      | none => .next { st with in_vnode := false, has_stime := true } := rfl

/-- Processing an `estimated.start_time` line: ignored once `has_stime` is
set; otherwise the start time is the parsed value on success and is left
unchanged on failure. -/
theorem step_estStartLine (stp : PyStr → Option Int) (now : Int) (nt : PyStr)
    (st : PState) (v : PyStr) :
    step stp now nt st (estStartLine v) =
      if st.has_stime then .next { st with in_vnode := false }
      else
        match stp v with
        | some t => .next { st with in_vnode := false, j := { st.j with start_time := t } }
        | none => .next { st with in_vnode := false } := rfl

/-- Processing an `eligible_time` line: the parsed value on success, `now`
on failure. -/
theorem step_eligLine (stp : PyStr → Option Int) (now : Int) (nt : PyStr)
    (st : PState) (v : PyStr) :
    step stp now nt st (eligLine v) =
      match stp v with
      | some t => .next { st with in_vnode := false, j := { st.j with eligible_time := t } }
      | none => .next { st with in_vnode := false, j := { st.j with eligible_time := now } } := rfl

/-- Processing an `exec_vnode` line: the accumulator is (re)set to the value
and both `in_vnode` and the `exec_vnode`-seen flag are raised. -/
theorem step_execLine (stp : PyStr → Option Int) (now : Int) (nt : PyStr)
    (st : PState) (v : PyStr) :
    step stp now nt st (execLine v) =
      .next { st with in_vnode := true, exec_flag := true, est_vnode := v } := rfl

/-- Processing an `estimated.exec_vnode` line: a no-op (except for clearing
`in_vnode`) when an actual `exec_vnode` was already seen, otherwise it seeds
the accumulator. -/
theorem step_estExecLine (stp : PyStr → Option Int) (now : Int) (nt : PyStr)
    (st : PState) (v : PyStr) :
    step stp now nt st (estExecLine v) =
      if st.exec_flag then .next { st with in_vnode := false }
      else .next { st with in_vnode := true, est_vnode := v } := rfl

/-- Processing a `Job_Name` line. -/
theorem step_nameLine (stp : PyStr → Option Int) (now : Int) (nt : PyStr)
    (st : PState) (v : PyStr) :
    step stp now nt st (nameLine v) =
      .next { st with in_vnode := false, j := { st.j with job_name := v } } := rfl

/-! ### The loop: append decomposition and invariants -/

/-- Running the loop over a concatenation: run the first part; continue with
its final state unless it raised or returned the sentinel. -/
theorem runLines_append (stp : PyStr → Option Int) (now : Int) (nt : PyStr) :
    ∀ (A : List PyStr) (st : PState) (B : List PyStr),
      runLines stp now nt st (A ++ B) =
        match runLines stp now nt st A with
        | .ok (some st1) => runLines stp now nt st1 B
        | .ok none => .ok none
        | .error e => .error e
  | [], st, B => by simp [runLines]
  | l :: ls, st, B => by
    simp only [List.cons_append, runLines]
    cases step stp now nt st l with
    | raise => rfl
    | sentinel => rfl
    | next st1 => exact runLines_append stp now nt ls st1 B

/-- A successful attribute action never changes the job id and never lowers
`has_stime`. -/
theorem applyAttr_next_inv (stp : PyStr → Option Int) (now : Int) (nt : PyStr)
    (st1 : PState) (key : AttrKey) (rest : PyStr) (st2 : PState)
    (h : applyAttr stp now nt st1 key rest = .next st2) :
    st2.j.job_id = st1.j.job_id ∧ (st1.has_stime = true → st2.has_stime = true) := by
  cases key <;> simp only [applyAttr] at h <;>
    (try split at h) <;> (try split at h) <;>
    first
      | (cases h; exact ⟨rfl, fun hh => hh⟩)
      | (cases h; exact ⟨rfl, fun hh => rfl⟩)
      | cases h

/-- A successful `step` never changes the job id and never lowers
`has_stime`. -/
theorem step_next_inv (stp : PyStr → Option Int) (now : Int) (nt : PyStr)
    (st : PState) (line : PyStr) (st1 : PState)
    (h : step stp now nt st line = .next st1) :
    st1.j.job_id = st.j.job_id ∧ (st.has_stime = true → st1.has_stime = true) := by
  unfold step at h
  split at h
  next varname rest heq =>
    have h2 := applyAttr_next_inv stp now nt { st with in_vnode := false }
      (keyOf varname) rest st1 h
    exact h2
  next heq => split at h <;> (cases h; exact ⟨rfl, fun hh => hh⟩)

/-- Over a whole run, the job id is unchanged and `has_stime` is monotone. -/
theorem runLines_inv (stp : PyStr → Option Int) (now : Int) (nt : PyStr) :
    ∀ (L : List PyStr) (st st1 : PState),
      runLines stp now nt st L = .ok (some st1) →
      st1.j.job_id = st.j.job_id ∧ (st.has_stime = true → st1.has_stime = true)
  | [], st, st1, h => by
    simp only [runLines, Except.ok.injEq, Option.some.injEq] at h
    subst h; exact ⟨rfl, fun h => h⟩
  | l :: ls, st, st1, h => by
    simp only [runLines] at h
    cases hs : step stp now nt st l with
    | raise => rw [hs] at h; cases h
    | sentinel => rw [hs] at h; cases h
    | next st2 =>
      rw [hs] at h
      have h1 := step_next_inv stp now nt st l st2 hs
      have h2 := runLines_inv stp now nt ls st2 st1 h
      exact ⟨h2.1.trans h1.1, fun hh => h2.2 (h1.2 hh)⟩

/-- A successful action of a key other than the two vnode keys preserves the
accumulator and the `exec_vnode`-seen flag. -/
theorem applyAttr_neutral_inv (stp : PyStr → Option Int) (now : Int) (nt : PyStr)
    (st1 : PState) (key : AttrKey) (rest : PyStr) (st2 : PState)
    (hk1 : key ≠ AttrKey.execVnodeK) (hk2 : key ≠ AttrKey.estExecVnodeK)
    (h : applyAttr stp now nt st1 key rest = .next st2) :
    st2.est_vnode = st1.est_vnode ∧ st2.exec_flag = st1.exec_flag := by
  cases key <;> simp only [applyAttr] at h <;>
    (try split at h) <;> (try split at h) <;>
    first
      | exact absurd rfl hk1
      | exact absurd rfl hk2
      | (cases h; exact ⟨rfl, rfl⟩)
      | cases h

/-- A successful `step` on a vnode-neutral line preserves the accumulator
and the `exec_vnode`-seen flag. -/
theorem step_neutral_inv (stp : PyStr → Option Int) (now : Int) (nt : PyStr)
    (st : PState) (line : PyStr) (st1 : PState)
    (hn : vnodeNeutral line = true)
    (h : step stp now nt st line = .next st1) :
    st1.est_vnode = st.est_vnode ∧ st1.exec_flag = st.exec_flag := by
  unfold vnodeNeutral at hn
  unfold step at h
  split at h
  next varname rest heq =>
    rw [heq] at hn
    simp only [Bool.and_eq_true, decide_eq_true_eq, ne_eq] at hn
    exact applyAttr_neutral_inv stp now nt { st with in_vnode := false }
      (keyOf varname) rest st1 (by simpa using hn.1) (by simpa using hn.2) h
  next heq => rw [heq] at hn; cases hn

/-- A run over vnode-neutral lines preserves the accumulator and the
`exec_vnode`-seen flag. -/
theorem runLines_neutral_inv (stp : PyStr → Option Int) (now : Int) (nt : PyStr) :
    ∀ (L : List PyStr) (st st1 : PState),
      (∀ l ∈ L, vnodeNeutral l = true) →
      runLines stp now nt st L = .ok (some st1) →
      st1.est_vnode = st.est_vnode ∧ st1.exec_flag = st.exec_flag
  | [], st, st1, _, h => by
    simp only [runLines, Except.ok.injEq, Option.some.injEq] at h
    subst h; exact ⟨rfl, rfl⟩
  | l :: ls, st, st1, hn, h => by
    simp only [runLines] at h
    cases hs : step stp now nt st l with
    | raise => rw [hs] at h; cases h
    | sentinel => rw [hs] at h; cases h
    | next st2 =>
      rw [hs] at h
      have h1 := step_neutral_inv stp now nt st l st2 (hn l (List.mem_cons_self l ls)) hs
      have h2 := runLines_neutral_inv stp now nt ls st2 st1
        (fun x hx => hn x (List.mem_cons_of_mem l hx)) h
      exact ⟨h2.1.trans h1.1, h2.2.trans h1.2⟩


/-! ### Lemmas about `interval` -/

/-- `takeWhile isDigit` consumes exactly a digit block ended by a non-digit. -/
theorem takeWhile_digits_stop {d : PyStr} (hd : ∀ c ∈ d, c.isDigit = true)
    {x : Char} (hx : x.isDigit = false) (r : PyStr) :
    (d ++ x :: r).takeWhile Char.isDigit = d := by
  rw [takeWhile_app hd]
  simp [List.takeWhile_cons, hx]

/-- `parseHMS` on a well-formed `HH:MM:SS` string. -/
theorem parseHMS_spec (hh mm ss : PyStr)
    (hh1 : hh ≠ []) (hh2 : ∀ c ∈ hh, c.isDigit = true)
    (mm1 : mm ≠ []) (mm2 : ∀ c ∈ mm, c.isDigit = true)
    (ss1 : ss ≠ []) (ss2 : ∀ c ∈ ss, c.isDigit = true) :
    parseHMS (hh ++ ':' :: (mm ++ ':' :: ss)) =
      some (digsVal hh * 3600 + digsVal mm * 60 + digsVal ss) := by
  obtain ⟨a, t, rfl⟩ : ∃ a t, hh = a :: t := by
    cases hh with
    | nil => exact absurd rfl hh1
    | cons a t => exact ⟨a, t, rfl⟩
  obtain ⟨b, u, rfl⟩ : ∃ b u, mm = b :: u := by
    cases mm with
    | nil => exact absurd rfl mm1
    | cons b u => exact ⟨b, u, rfl⟩
  obtain ⟨e, w, rfl⟩ : ∃ e w, ss = e :: w := by
    cases ss with
    | nil => exact absurd rfl ss1
    | cons e w => exact ⟨e, w, rfl⟩
  have e1 : ((a :: t) ++ ':' :: ((b :: u) ++ ':' :: (e :: w))).takeWhile Char.isDigit = a :: t :=
    takeWhile_digits_stop hh2 (by decide) _
  have e2 : ((a :: t) ++ ':' :: ((b :: u) ++ ':' :: (e :: w))).drop (a :: t).length
      = ':' :: ((b :: u) ++ ':' :: (e :: w)) := by
    rw [List.drop_left]
  have e3 : ((b :: u) ++ ':' :: (e :: w)).takeWhile Char.isDigit = b :: u :=
    takeWhile_digits_stop mm2 (by decide) _
  have e4 : ((b :: u) ++ ':' :: (e :: w)).drop (b :: u).length = ':' :: (e :: w) := by
    rw [List.drop_left]
  have e5 : (e :: w).takeWhile Char.isDigit = e :: w := takeWhile_all ss2
  unfold parseHMS
  simp only [e1, e2, e3, e4, e5]

/-- The days-group alternative fails on a plain `HH:MM:SS` string: after the
leading digit run the next character is `':'`, not `' '`. -/
theorem matchDays_hms_none (hh : PyStr)
    (hh2 : ∀ c ∈ hh, c.isDigit = true) (rest : PyStr) :
    matchDays (hh ++ ':' :: rest) = none := by
  have e1 : (hh ++ ':' :: rest).takeWhile Char.isDigit = hh :=
    takeWhile_digits_stop hh2 (by decide) _
  have e2 : (hh ++ ':' :: rest).drop hh.length = ':' :: rest := by
    rw [List.drop_left]
  unfold matchDays
  simp only [e1, e2]
  have e3 : leadsWith (" days, ".toList) (':' :: rest) = false := by
    simp [leadsWith]
  rw [e3]
  simp

/-- The days-group alternative on a `D days, <rest>` string: `D` contributes
`86400` seconds per day and the rest is parsed as `HH:MM:SS`. -/
theorem matchDays_days (dd : PyStr) (dd1 : dd ≠ [])
    (dd2 : ∀ c ∈ dd, c.isDigit = true) (hms : PyStr) :
    matchDays (dd ++ (" days, ".toList ++ hms)) =
      (parseHMS hms).map (fun v => digsVal dd * 86400 + v) := by
  have e1 : (dd ++ (" days, ".toList ++ hms)).takeWhile Char.isDigit = dd := by
    have h0 : " days, ".toList ++ hms = ' ' :: ("days, ".toList ++ hms) := rfl
    rw [h0]
    exact takeWhile_digits_stop dd2 (by decide) _
  have e2 : (dd ++ (" days, ".toList ++ hms)).drop dd.length = " days, ".toList ++ hms := by
    rw [List.drop_left]
  have e3 : leadsWith (" days, ".toList) (" days, ".toList ++ hms) = true :=
    leadsWith_app _ _
  have e4 : (" days, ".toList ++ hms).drop 7 = hms := by
    have h7 : (" days, ".toList).length = 7 := rfl
    rw [← h7, List.drop_left]
  unfold matchDays
  simp only [e1, e2, e3, e4, Bool.and_true]
  rw [if_pos (by simpa using dd1)]



/-! ### Further helper lemmas -/

/-- `pyFindAux` returns `-1` or a position at least the starting offset. -/
theorem pyFindAux_cases (sub : PyStr) :
    ∀ (s : PyStr) (i : Nat), pyFindAux sub s i = -1 ∨ 0 ≤ pyFindAux sub s i
  | s, i => by
    unfold pyFindAux
    split
    · right; positivity
    · match s with
      | [] => left; rfl
      | _ :: t => exact pyFindAux_cases sub t (i + 1)

/-- A successful `job_from_qstat` comes from a successful run of the loop,
the returned job being the final state's cleanup. -/
theorem job_from_qstat_ok (stp : PyStr → Option Int) (now : Int) (nt : PyStr)
    (block : PyStr) (j : Job)
    (h : job_from_qstat stp now nt block = .ok (some j)) :
    ∃ st, runLines stp now nt (initState now block) (processedLines block) = .ok (some st) ∧
      j = finalize st := by
  unfold job_from_qstat at h
  split at h
  · cases h
  · cases h
  next st heq =>
    cases h
    exact ⟨st, heq, rfl⟩

/-- The first fragment of a `':'`-split is the text before the first `':'`. -/
theorem pySplitChar_headD_takeWhile (c : Char) :
    ∀ s : PyStr, (pySplitChar c s).headD [] = s.takeWhile (fun x => x ≠ c)
  | [] => rfl
  | x :: xs => by
    have ih := pySplitChar_headD_takeWhile c xs
    simp only [pySplitChar]
    split
    next heq => exact absurd heq (pySplitChar_ne_nil c xs)
    next g gs heq =>
      by_cases hx : x = c
      · simp [hx, List.takeWhile_cons]
      · have : (pySplitChar c xs).headD [] = g := by rw [heq]; rfl
        rw [this] at ih
        simp [if_neg hx, List.takeWhile_cons, hx, ih]

/-- Stripping the character set `['(']` is stripping the single character. -/
theorem pyStripChars_paren (l : PyStr) :
    pyStripChars ['('] l =
      ((l.dropWhile (fun c => c = '(')).reverse.dropWhile (fun c => c = '(')).reverse := by
  unfold pyStripChars
  have hf : (fun x => (['('] : PyStr).contains x) = (fun c : Char => decide (c = '(')) := by
    funext c
    simp [List.contains]
  rw [hf]


/-- A strptime model that always fails (any locale-unparseable input). -/
def stpNone : PyStr → Option Int := fun _ => none

/-- A small well-formed block: header plus one `Job_Name` line (the block
ends with a newline so the final split fragment is the empty string). -/
def blockW9 : PyStr := "Job Id: 5\n    Job_Name = x\n".toList

/-- The job that `job_from_qstat` returns on `blockW9` with `now = 0`. -/
def jobW9 : Job :=
  { job_id := .strId ['5'], job_name := ['x'], job_state := [], job_owner := []
    queue := [], nodect := 0, walltime := 0, eligible_time := 0
    exec_vnode := [], start_time := 0 }


/-- A block whose queue line is the block's final line. -/
def blockC2 : PyStr := "Job Id: 1\n    queue = batch".toList

/-- The job `job_from_qstat` returns on `blockC2`: the queue filter never
ran, so the queue is still the empty default. -/
def jobC2 : Job :=
  { job_id := .strId ['1'], job_name := [], job_state := [], job_owner := []
    queue := [], nodect := 0, walltime := 0, eligible_time := 0
    exec_vnode := [], start_time := 0 }

/-- A block with a queue line strictly inside it (a line before and after). -/
def blockW2 : PyStr :=
  "Job Id: 9\n    Job_Name = j\n    queue = batch\n    Job_Owner = me@host\n".toList

/-- The parser state after processing `blockW2`'s `Job_Name` line. -/
def stateW2 : PState :=
  { j := { job_id := .strId ['9'], job_name := ['j'], job_state := [], job_owner := []
           queue := [], nodect := 0, walltime := 0, eligible_time := 0
           exec_vnode := [], start_time := 0 }
    exec_flag := false, has_stime := false, in_vnode := false, est_vnode := [] }


/-- A strptime model that parses only the value `GOODTIME` (to `5000`). -/
def stpGood : PyStr → Option Int :=
  fun v => if v = "GOODTIME".toList then some 5000 else none

/-- A block with a parseable `estimated.start_time` before an unparseable
`stime`. -/
def blockC10 : PyStr :=
  "Job Id: 1\n    estimated.start_time = GOODTIME\n    stime = BAD\n".toList

/-- A fresh parser state (all class defaults, `now = 0`). -/
def pState0 : PState :=
  { j := initJob 0, exec_flag := false, has_stime := false, in_vnode := false, est_vnode := [] }

/-- `pState0` after an unparseable `stime` line: only `has_stime` is set. -/
def pState1 : PState :=
  { j := initJob 0, exec_flag := false, has_stime := true, in_vnode := false, est_vnode := [] }


/-- Block with an unparseable `eligible_time` followed by a further line. -/
def blockW8a : PyStr := "Job Id: 7\n    eligible_time = BAD\n    Job_Name = hello\n".toList

/-- Block with an unparseable `stime` followed by a further line. -/
def blockW8b : PyStr := "Job Id: 7\n    stime = BAD\n    Job_Name = hello\n".toList

/-- Block with an unparseable `estimated.start_time` followed by a line. -/
def blockW8c : PyStr :=
  "Job Id: 7\n    estimated.start_time = BAD\n    Job_Name = hello\n".toList

/-- Final state for `blockW8a`/`blockW8c` (`now = 0`). -/
def stateW8a : PState :=
  { j := { job_id := .strId ['7'], job_name := "hello".toList, job_state := [], job_owner := []
           queue := [], nodect := 0, walltime := 0, eligible_time := 0
           exec_vnode := [], start_time := 0 }
    exec_flag := false, has_stime := false, in_vnode := false, est_vnode := [] }

/-- Final state for `blockW8b`: additionally `has_stime` is set. -/
def stateW8b : PState :=
  { stateW8a with has_stime := true }


/-- A block whose `exec_vnode` line is the block's final line: only the
`estimated.exec_vnode` line is processed. -/
def blockC4 : PyStr :=
  "Job Id: 1\n    estimated.exec_vnode = (b:y)\n    exec_vnode = (a:x)".toList

/-- A block with `exec_vnode` first, then `estimated.exec_vnode`, then a
further attribute line, all inside the processed region. -/
def blockW4 : PyStr :=
  "Job Id: 1\n    exec_vnode = (a:x)\n    estimated.exec_vnode = (b:y)\n    Job_Name = n\n".toList

/-- The same attributes in the opposite order. -/
def blockW4b : PyStr :=
  "Job Id: 1\n    estimated.exec_vnode = (b:y)\n    exec_vnode = (a:x)\n    Job_Name = n\n".toList

/-- The job returned for `blockW4` and `blockW4b`: the node list comes from
the actual assignment `(a:x)` in both orders. -/
def jobW4 : Job :=
  { job_id := .strId ['1'], job_name := ['n'], job_state := [], job_owner := []
    queue := [], nodect := 0, walltime := 0, eligible_time := 0
    exec_vnode := ["a".toList], start_time := 0 }


/-- A three-node inventory for the renderer witness. -/
def nodesW6 : List PyStr := ["n1".toList, "n2".toList, "n3".toList]

/-- A running job assigned to nodes `n3` and `n1`, started 1800 s ago. -/
def jobW6a : Job :=
  { job_id := .strId ['1'], job_name := ['a'], job_state := ['R'], job_owner := []
    queue := "xfua".toList, nodect := 2, walltime := 3600, eligible_time := 0
    exec_vnode := ["n3".toList, "n1".toList], start_time := -1800 }

/-- A held job: present in the list but never drawn. -/
def jobW6b : Job :=
  { job_id := .strId ['2'], job_name := ['b'], job_state := ['H'], job_owner := []
    queue := "xfua".toList, nodect := 1, walltime := 3600, eligible_time := 0
    exec_vnode := ["n2".toList], start_time := 0 }

/-! ## The claims -/

/-- Claim C1: for every time-span string of the form `D days, HH:MM:SS` or
`HH:MM:SS` (with `D`, `HH`, `MM`, `SS` nonempty decimal digit sequences),
`interval` returns a duration of `D*86400 + HH*3600 + MM*60 + SS` seconds,
`D` defaulting to `0` when the `D days, ` prefix is absent. -/
theorem claim_C1 (dd hh mm ss : PyStr)
    (dd1 : dd ≠ []) (dd2 : ∀ c ∈ dd, c.isDigit = true)
    (hh1 : hh ≠ []) (hh2 : ∀ c ∈ hh, c.isDigit = true)
    (mm1 : mm ≠ []) (mm2 : ∀ c ∈ mm, c.isDigit = true)
    (ss1 : ss ≠ []) (ss2 : ∀ c ∈ ss, c.isDigit = true) :
    interval (dd ++ (" days, ".toList ++ (hh ++ ':' :: (mm ++ ':' :: ss)))) =
      some (digsVal dd * 86400 + digsVal hh * 3600 + digsVal mm * 60 + digsVal ss) ∧
    interval (hh ++ ':' :: (mm ++ ':' :: ss)) =
      some (0 * 86400 + digsVal hh * 3600 + digsVal mm * 60 + digsVal ss) := by
  have hp := parseHMS_spec hh mm ss hh1 hh2 mm1 mm2 ss1 ss2
  constructor
  · unfold interval
    rw [matchDays_days dd dd1 dd2 _, hp]
    simp [Nat.add_assoc]
  · unfold interval
    rw [matchDays_hms_none hh hh2 _, hp]
    simp

/-- Witness for C1 at `3 days, 12:30:05` and `12:30:05`. -/
theorem claim_C1_witness :
    interval ("3 days, 12:30:05".toList) = some 304205 ∧
    interval ("12:30:05".toList) = some 45005 := by
  have h := claim_C1 ("3".toList) ("12".toList) ("30".toList) ("05".toList)
    (by decide) (by decide) (by decide) (by decide)
    (by decide) (by decide) (by decide) (by decide)
  exact ⟨h.1, h.2⟩



/-- A `stime` line always steps to a next state with `has_stime` set. -/
theorem step_stimeLine_next (stp : PyStr → Option Int) (now : Int) (nt : PyStr)
    (st : PState) (v : PyStr) :
    ∃ st1, step stp now nt st (stimeLine v) = .next st1 ∧ st1.has_stime = true := by
  rw [step_stimeLine]
  cases stp v with
  | some t => exact ⟨_, rfl, rfl⟩
  | none => exact ⟨_, rfl, rfl⟩

/-- Once an `stime` line occurs in a successful run, the final state has
`has_stime` set. -/
theorem runLines_stime_sets (stp : PyStr → Option Int) (now : Int) (nt : PyStr) :
    ∀ (L : List PyStr) (st s1 : PState) (w : PyStr),
      stimeLine w ∈ L →
      runLines stp now nt st L = .ok (some s1) →
      s1.has_stime = true
  | [], _, _, w, hw, _ => absurd hw (List.not_mem_nil _)
  | l :: ls, st, s1, w, hw, h => by
    simp only [runLines] at h
    cases hs : step stp now nt st l with
    | raise => rw [hs] at h; cases h
    | sentinel => rw [hs] at h; cases h
    | next st2 =>
      rw [hs] at h
      rcases List.mem_cons.mp hw with he | hm
      · obtain ⟨st1x, hx, hhx⟩ := step_stimeLine_next stp now nt st w
        rw [← he, hx] at hs
        cases hs
        exact (runLines_inv stp now nt ls st2 s1 h).2 hhx
      · exact runLines_stime_sets stp now nt ls st2 s1 w hm h


/-- A successful run over a concatenation decomposes into successful runs
over the parts. -/
theorem runLines_append_ok (stp : PyStr → Option Int) (now : Int) (nt : PyStr)
    (A B : List PyStr) (st st1 : PState)
    (h : runLines stp now nt st (A ++ B) = .ok (some st1)) :
    ∃ s1, runLines stp now nt st A = .ok (some s1) ∧
      runLines stp now nt s1 B = .ok (some st1) := by
  rw [runLines_append] at h
  cases hA : runLines stp now nt st A with
  | error e => rw [hA] at h; cases h
  | ok o =>
    cases o with
    | none => rw [hA] at h; simp at h
    | some s1 => rw [hA] at h; exact ⟨s1, rfl, h⟩


/-! ### Lemmas about the run grouping (`groupby` + `count`) -/

/-- Unfolding equation of `groupPairs` on a cons. -/
theorem groupPairs_cons (k : Int) (n : Nat) (rest : List (Int × Nat)) :
    groupPairs ((k, n) :: rest) =
      (n, (rest.takeWhile (fun p => p.1 = k)).map Prod.snd) ::
        groupPairs (rest.dropWhile (fun p => p.1 = k)) := by
  rw [groupPairs]

/-- Unfolding equation of `groupPairs` on nil. -/
theorem groupPairs_nil : groupPairs [] = [] := by rw [groupPairs]

/-- Key lemma: on a strictly increasing list, grouping by the key `n - c`
(`c` the running counter) yields exactly the maximal contiguous runs; stated
relative to an open run that started at `start` and currently ends at `cur`
with the counter at `c + 1`. -/
theorem groupPairs_runsAux :
    ∀ (xs : List Nat) (start cur c : Nat),
      List.Sorted (· < ·) (cur :: xs) →
      (start,
        (((keyFrom (c + 1) xs).takeWhile (fun p => p.1 = (cur : Int) - (c : Int))).map
          Prod.snd).getLastD cur) ::
        (groupPairs ((keyFrom (c + 1) xs).dropWhile
          (fun p => p.1 = (cur : Int) - (c : Int)))).map toRange
      = runsAux start cur xs := by
  intro xs
  induction xs with
  | nil =>
    intro start cur c _
    simp [keyFrom, groupPairs, runsAux, toRange]
  | cons y ys ih =>
    intro start cur c hs
    have hsy : List.Sorted (· < ·) (y :: ys) := (List.sorted_cons.mp hs).2
    have hcy : cur < y := (List.sorted_cons.mp hs).1 y (List.mem_cons_self _ _)
    by_cases hy : y = cur + 1
    · have hkey : ((y : Int) - ((c + 1 : Nat) : Int)) = (cur : Int) - (c : Int) := by
        subst hy; push_cast; ring
      simp only [keyFrom, List.takeWhile_cons, List.dropWhile_cons, hkey]
      simp only [decide_True, if_true, List.map_cons, List.getLastD_cons]
      rw [runsAux, if_pos hy]
      rw [← ih start y (c + 1) hsy]
      simp only [hkey]
    · have hkeyne : ¬(((y : Int) - ((c + 1 : Nat) : Int)) = (cur : Int) - (c : Int)) := by
        push_cast
        omega
      simp only [keyFrom, List.takeWhile_cons, List.dropWhile_cons]
      rw [decide_eq_false hkeyne]
      simp only [Bool.false_eq_true, if_false, List.map_nil, List.getLastD_nil]
      rw [groupPairs_cons]
      simp only [List.map_cons]
      rw [runsAux, if_neg hy]
      have hrest := ih y y (c + 1) hsy
      rw [← hrest]
      simp [toRange]

/-- A sorted list is left unchanged by the model of `sorted`. -/
theorem pySorted_eq_self {l : List Nat} (h : List.Sorted (· < ·) l) : pySorted l = l := by
  unfold pySorted
  exact List.Sorted.insertionSort_eq (h.imp fun {a b} hab => le_of_lt hab)

/-- On a strictly increasing index list, the renderer grouping computes the
maximal contiguous runs. -/
theorem pyRanges_sorted (l : List Nat) (h : List.Sorted (· < ·) l) :
    pyRanges l = runsOf l := by
  unfold pyRanges
  rw [pySorted_eq_self h]
  cases l with
  | nil => simp [keyFrom, groupPairs, runsOf]
  | cons x xs =>
    show (groupPairs (keyFrom 0 (x :: xs))).map toRange = runsAux x x xs
    simp only [keyFrom]
    rw [groupPairs_cons]
    simp only [List.map_cons]
    have hmain := groupPairs_runsAux xs x x 0 h
    rw [← hmain]
    simp [toRange]


/-! ### Lemmas about the renderer -/

theorem listIndex_ok_of_mem {nodes : List PyStr} {x : PyStr} (hx : x ∈ nodes) :
    ∃ i, listIndex nodes x = .ok i := by
  induction nodes with
  | nil => cases hx
  | cons y ys ih =>
    by_cases hy : y = x
    · exact ⟨0, by simp [listIndex, hy]⟩
    · have hx2 : x ∈ ys := by
        rcases List.mem_cons.mp hx with he | hm
        · exact absurd he.symm hy
        · exact hm
      obtain ⟨i, hi⟩ := ih hx2
      exact ⟨i + 1, by simp [listIndex, hy, hi, Except.map]⟩

theorem indexList_ok {nodes : List PyStr} :
    ∀ {l : List PyStr}, (∀ nm ∈ l, nm ∈ nodes) →
      ∃ is, indexList nodes l = .ok is ∧ is.length = l.length
  | [], _ => ⟨[], rfl, rfl⟩
  | nm :: rest, h => by
    obtain ⟨i, hi⟩ := listIndex_ok_of_mem (h nm (List.mem_cons_self _ _))
    obtain ⟨is, his, hlen⟩ := indexList_ok (fun x hx => h x (List.mem_cons_of_mem _ hx))
    exact ⟨i :: is, by simp [indexList, hi, his], by simp [hlen]⟩

theorem pyRanges_ne_nil {l : List Nat} (h : l ≠ []) : pyRanges l ≠ [] := by
  unfold pyRanges
  have hlen : (pySorted l).length = l.length := by
    unfold pySorted
    apply List.length_insertionSort
  cases hs : pySorted l with
  | nil =>
    rw [hs] at hlen
    cases l with
    | nil => exact absurd rfl h
    | cons x xs => simp at hlen
  | cons p ps =>
    simp only [keyFrom]
    rw [groupPairs_cons]
    simp

theorem rectsOfRanges_facts (ts te : ℚ) (ranges : List (Nat × Nat)) :
    ∀ r ∈ rectsOfRanges ts te ranges, r.x = ts ∧ r.w = te - ts := by
  intro r hr
  unfold rectsOfRanges at hr
  obtain ⟨rg, _, rfl⟩ := List.mem_map.mp hr
  exact ⟨rfl, rfl⟩

theorem jobRects_ok (nodes : List PyStr) (now : Int) (job : Job)
    (hmem : ∀ nm ∈ job.exec_vnode, nm ∈ nodes) (hne : job.exec_vnode ≠ []) :
    ∃ rs, jobRects nodes now job = .ok rs ∧ rs ≠ [] ∧
      ∀ r ∈ rs, r.x = hoursQ (job.start_time - now) ∧
        r.x + r.w = hoursQ (job.start_time + (job.walltime : Int) - now) ∧
        (job.start_time < now → r.x < 0) := by
  obtain ⟨is, his, hlen⟩ := indexList_ok hmem
  have hisne : is ≠ [] := by
    intro he
    rw [he] at hlen
    cases hvn : job.exec_vnode with
    | nil => exact absurd hvn hne
    | cons a b => rw [hvn] at hlen; simp at hlen
  refine ⟨rectsOfRanges (hoursQ (job.start_time - now))
      (hoursQ (job.start_time + (job.walltime : Int) - now)) (pyRanges is), ?_, ?_, ?_⟩
  · simp [jobRects, his]
  · unfold rectsOfRanges
    intro habs
    exact pyRanges_ne_nil hisne (List.map_eq_nil_iff.mp habs)
  · intro r hr
    have hf := rectsOfRanges_facts _ _ _ r hr
    refine ⟨hf.1, ?_, ?_⟩
    · rw [hf.1, hf.2]
      ring
    · intro hlt
      rw [hf.1]
      unfold hoursQ
      apply div_neg_of_neg_of_pos
      · have : (job.start_time - now : Int) < 0 := by omega
        exact_mod_cast this
      · norm_num


/-- A plausible job whose queue does not contain `knl` (the default
`NODE_TYPE` is `xfua`, so such jobs pass the queue filter). -/
def knlBugJob : Job :=
  { initJob 0 with queue := "xfua_batch".toList, job_state := "R".toList,
                   exec_vnode := ["n1".toList] }

/-- Claim C7: the spec says that when the first job's queue does not contain
`knl` the memory-mode shading is skipped and rendering continues.  The code
instead uses `jobs[0].queue.index('knl') >= 0`, and `str.index` raises
`ValueError` when the substring is absent, so the renderer crashes; the guard
can never evaluate to `false` for a nonempty job list (the comparison
`>= 0` is vacuous on `str.index` results, and every other substring test in
the script uses `find`, so `index` here is a slip). -/
theorem claim_C7 :
    knlCheck [knlBugJob] = .error () ∧
    ∀ (j : Job) (tl : List Job),
      knlCheck (j :: tl) = .error () ∨ knlCheck (j :: tl) = .ok true := by
  constructor
  · rfl
  · intro j tl
    have hk : knlCheck (j :: tl) =
        match pyStrIndexE ("knl".toList) j.queue with
        | .error e => .error e
        | .ok i => .ok (decide (i ≥ 0)) := rfl
    rw [hk]
    unfold pyStrIndexE
    by_cases h : pyFind ("knl".toList) j.queue = -1
    · rw [if_pos h]; left; rfl
    · rw [if_neg h]
      rcases pyFindAux_cases ("knl".toList) j.queue 0 with h0 | h0
      · exact absurd h0 h
      · right
        show Except.ok (decide (pyFind ("knl".toList) j.queue ≥ 0)) = Except.ok true
        unfold pyFind
        rw [decide_eq_true (by exact h0)]


/-- Claim C3 counterexample: the code strips `'('` from *both* ends of the
text before the first `':'` (Python `strip('(')`), not just a leading one.
On the field `a(:b` the code yields `["a"]` while the claim's rule
("text before the first `':'` with a leading `'('` stripped") yields
`["a("]`. -/
theorem claim_C3_cex :
    cleanVnode ("a(:b".toList) = ["a".toList] ∧
    claimClean ("a(:b".toList) = ["a(".toList] ∧
    ("a".toList : PyStr) ≠ "a(".toList := by
  refine ⟨rfl, rfl, ?_⟩
  decide

/-- Claim C3, amended: node-assignment parsing splits the accumulated field
on `'+'` and keeps, for each entry, the text before the first `':'` with all
`'('` characters stripped from both ends; a result consisting of a single
empty entry is normalized to the empty list, so in particular
`(nodeA:ncpus=2)+(nodeB:ncpus=4)` yields `["nodeA", "nodeB"]` and the
empty-string field yields the empty list rather than a single empty-string
entry. -/
theorem claim_C3 :
    (∀ f : PyStr, cleanVnode f =
      (if (pySplitChar '+' f).map amendedEntryClean = [[]] then []
       else (pySplitChar '+' f).map amendedEntryClean)) ∧
    cleanVnode ("(nodeA:ncpus=2)+(nodeB:ncpus=4)".toList) =
      ["nodeA".toList, "nodeB".toList] ∧
    cleanVnode ([] : PyStr) = [] := by
  refine ⟨?_, rfl, rfl⟩
  intro f
  have hent : ∀ s : PyStr,
      pyStripChars ['('] ((pySplitChar ':' s).headD []) = amendedEntryClean s := by
    intro s
    rw [pyStripChars_paren, pySplitChar_headD_takeWhile]
    rfl
  unfold cleanVnode
  simp only [hent]


/-- Claim C9: when the block's first line contains exactly one `':'`, the
job id is the whitespace-trimmed text after it (a string); with zero or two
or more `':'` characters the job id stays the list of `':'`-split fragments.
Any job record returned by `job_from_qstat` carries the id computed this way
from its first line. -/
theorem claim_C9 :
    (∀ a b : PyStr, ':' ∉ a → ':' ∉ b →
      jobIdOf (a ++ ':' :: b) = .strId (pyStripWs b)) ∧
    (∀ fl : PyStr, fl.count ':' ≠ 1 →
      jobIdOf fl = .fragments (pySplitChar ':' fl)) ∧
    (∀ (stp : PyStr → Option Int) (now : Int) (nt block : PyStr) (j : Job),
      job_from_qstat stp now nt block = .ok (some j) →
      j.job_id = jobIdOf ((pySplitChar '\n' block).headD [])) := by
  refine ⟨?_, ?_, ?_⟩
  · intro a b ha hb
    unfold jobIdOf
    rw [pySplitChar_first ha b, pySplitChar_not_mem hb]
    rfl
  · intro fl hc
    unfold jobIdOf
    rw [if_neg]
    rw [pySplitChar_length]
    omega
  · intro stp now nt block j h
    obtain ⟨st, hrun, rfl⟩ := job_from_qstat_ok stp now nt block j h
    have hinv := runLines_inv stp now nt (processedLines block) (initState now block) st hrun
    exact hinv.1

/-- Witness for C9: a one-colon header, a two-colon header, and a parsed
block's returned id. -/
theorem claim_C9_witness :
    jobIdOf ("Job Id: 77.srv".toList) = .strId ("77.srv".toList) ∧
    jobIdOf ("a:b:c".toList) = .fragments ["a".toList, "b".toList, "c".toList] ∧
    jobW9.job_id = jobIdOf ((pySplitChar '\n' blockW9).headD []) := by
  refine ⟨?_, ?_, ?_⟩
  · exact claim_C9.1 ("Job Id".toList) (" 77.srv".toList) (by decide) (by decide)
  · exact claim_C9.2.1 ("a:b:c".toList) (by decide)
  · exact claim_C9.2.2 stpNone 0 ("xfua".toList) blockW9 jobW9 rfl


/-- Claim C2 counterexample: the loop iterates over
`job_info.split("\\n")[1:-1]`, so the *last* line of a block is never
processed.  A block whose queue line is its last line is not filtered:
`job_from_qstat` returns a `Job` (with the default empty queue), not the
`None` sentinel, although the block contains a queue attribute line whose
value `batch` does not contain the node type `xfua`. -/
theorem claim_C2_cex :
    (pySplitChar '\n' blockC2).getD 1 [] = queueLine ("batch".toList) ∧
    pyFind ("xfua".toList) ("batch".toList) = -1 ∧
    job_from_qstat stpNone 0 ("xfua".toList) blockC2 = .ok (some jobC2) ∧
    Except.ok (some jobC2) ≠ (.ok none : Except Unit (Option Job)) := by
  refine ⟨rfl, rfl, rfl, ?_⟩
  simp

/-- Claim C2, amended: for every job text block containing a queue attribute
line *among its processed lines* (the block's lines excluding the first and
the last), whose value does not contain the configured node-type substring,
and whose earlier processed lines are processed without raising and without
an earlier sentinel, `job_from_qstat` returns the `None` sentinel regardless
of the lines after the queue line; the caller silently drops such sentinels. -/
theorem claim_C2 :
    (∀ (stp : PyStr → Option Int) (now : Int) (nt block : PyStr)
       (L1 L2 : List PyStr) (v : PyStr) (s1 : PState),
      processedLines block = L1 ++ queueLine v :: L2 →
      pyFind nt v = -1 →
      runLines stp now nt (initState now block) L1 = .ok (some s1) →
      job_from_qstat stp now nt block = .ok none) ∧
    (∀ pre post : List (Option Job),
      callerKeep (pre ++ none :: post) = callerKeep pre ++ callerKeep post) := by
  constructor
  · intro stp now nt block L1 L2 v s1 hproc hfind hrun
    have hq : runLines stp now nt s1 (queueLine v :: L2) = .ok none := by
      simp only [runLines, step_queueLine, if_pos hfind]
    unfold job_from_qstat
    simp only [hproc, runLines_append, hrun, hq]
  · intro pre post
    simp [callerKeep, List.filterMap_append]

/-- Witness for C2: a block whose queue line sits strictly inside the block
is filtered to the sentinel. -/
theorem claim_C2_witness :
    processedLines blockW2 =
      [nameLine ("j".toList)] ++ queueLine ("batch".toList) :: ["    Job_Owner = me@host".toList] ∧
    pyFind ("xfua".toList) ("batch".toList) = -1 ∧
    job_from_qstat stpNone 0 ("xfua".toList) blockW2 = .ok none := by
  refine ⟨rfl, rfl, ?_⟩
  exact claim_C2.1 stpNone 0 ("xfua".toList) blockW2
    [nameLine ("j".toList)] (["    Job_Owner = me@host".toList]) ("batch".toList)
    stateW2 rfl rfl rfl


/-- Claim C10 counterexample: the guard `and not has_stime` only suppresses
`estimated.start_time` lines processed *after* the `stime` line.  In a block
where the estimated start time precedes the `stime` line, the estimated
value (5000) is parsed into the start time first, and the later unparseable
`stime` merely passes, so the returned start time is the estimated 5000, not
the prior default (`now = 0`). -/
theorem claim_C10_cex :
    stimeLine ("BAD".toList) ∈ processedLines blockC10 ∧
    estStartLine ("GOODTIME".toList) ∈ processedLines blockC10 ∧
    stpGood ("BAD".toList) = none ∧
    (job_from_qstat stpGood 0 ("xfua".toList) blockC10).map (Option.map Job.start_time) =
      .ok (some 5000) ∧
    (5000 : Int) ≠ 0 := by
  refine ⟨?_, ?_, rfl, rfl, by decide⟩
  · decide
  · decide

/-- Claim C10, amended: once an `stime` attribute has been processed, every
later `estimated.start_time` attribute of the block is ignored even when the
`stime` value failed to parse (the start time continues from the state the
`stime` line left, unchanged by the estimated line); an
`estimated.start_time` processed *before* the `stime` line is honored. -/
theorem claim_C10 (stp : PyStr → Option Int) (now : Int) (nt : PyStr)
    (st : PState) (L1 L2 : List PyStr) (w v : PyStr) (s1 : PState)
    (hw : stimeLine w ∈ L1)
    (h1 : runLines stp now nt st L1 = .ok (some s1)) :
    s1.has_stime = true ∧
    runLines stp now nt st (L1 ++ estStartLine v :: L2) =
      runLines stp now nt { s1 with in_vnode := false } L2 ∧
    ({ s1 with in_vnode := false } : PState).j.start_time = s1.j.start_time := by
  have hst := runLines_stime_sets stp now nt L1 st s1 w hw h1
  refine ⟨hst, ?_, rfl⟩
  rw [runLines_append, h1]
  simp only [runLines, step_estStartLine, hst, if_true]

/-- Witness for C10: an unparseable `stime` followed by a parseable
`estimated.start_time`; the estimated line is a no-op. -/
theorem claim_C10_witness :
    stimeLine ("BAD".toList) ∈ [stimeLine ("BAD".toList)] ∧
    (pState1.has_stime = true ∧
     runLines stpGood 0 ("xfua".toList) pState0
        ([stimeLine ("BAD".toList)] ++ estStartLine ("GOODTIME".toList) :: []) =
       runLines stpGood 0 ("xfua".toList) { pState1 with in_vnode := false } [] ∧
     ({ pState1 with in_vnode := false } : PState).j.start_time = pState1.j.start_time) :=
  ⟨List.mem_singleton.mpr rfl,
   claim_C10 stpGood 0 ("xfua".toList) pState0 [stimeLine ("BAD".toList)] []
     ("BAD".toList) ("GOODTIME".toList) pState1
     (List.mem_singleton.mpr rfl) rfl⟩


/-- Claim C8: a timestamp parse failure never aborts parsing of a job block.
On an unparseable `eligible_time` the eligibility time is set to `now`; on
an unparseable `stime` or `estimated.start_time` the start time is left at
whatever it was (initially also `now`); in each case the remaining lines of
the block are still processed from the fallback state and a `Job` record is
returned when they succeed. -/
theorem claim_C8 :
    (∀ (stp : PyStr → Option Int) (now : Int) (nt block : PyStr)
       (L1 L2 : List PyStr) (v : PyStr) (s1 s2 : PState),
      processedLines block = L1 ++ eligLine v :: L2 →
      stp v = none →
      runLines stp now nt (initState now block) L1 = .ok (some s1) →
      runLines stp now nt
        { s1 with in_vnode := false, j := { s1.j with eligible_time := now } } L2 =
        .ok (some s2) →
      job_from_qstat stp now nt block = .ok (some (finalize s2))) ∧
    (∀ (stp : PyStr → Option Int) (now : Int) (nt block : PyStr)
       (L1 L2 : List PyStr) (v : PyStr) (s1 s2 : PState),
      processedLines block = L1 ++ stimeLine v :: L2 →
      stp v = none →
      runLines stp now nt (initState now block) L1 = .ok (some s1) →
      runLines stp now nt { s1 with in_vnode := false, has_stime := true } L2 =
        .ok (some s2) →
      job_from_qstat stp now nt block = .ok (some (finalize s2))) ∧
    (∀ (stp : PyStr → Option Int) (now : Int) (nt block : PyStr)
       (L1 L2 : List PyStr) (v : PyStr) (s1 s2 : PState),
      processedLines block = L1 ++ estStartLine v :: L2 →
      stp v = none →
      runLines stp now nt (initState now block) L1 = .ok (some s1) →
      runLines stp now nt { s1 with in_vnode := false } L2 = .ok (some s2) →
      job_from_qstat stp now nt block = .ok (some (finalize s2))) ∧
    (∀ s1 : PState,
      ({ s1 with in_vnode := false, has_stime := true } : PState).j.start_time =
        s1.j.start_time) ∧
    (∀ s1 : PState,
      ({ s1 with in_vnode := false } : PState).j.start_time = s1.j.start_time) := by
  refine ⟨?_, ?_, ?_, fun _ => rfl, fun _ => rfl⟩
  · intro stp now nt block L1 L2 v s1 s2 hproc hv h1 h2
    unfold job_from_qstat
    simp only [hproc, runLines_append, h1, runLines, step_eligLine, hv, h2]
  · intro stp now nt block L1 L2 v s1 s2 hproc hv h1 h2
    unfold job_from_qstat
    simp only [hproc, runLines_append, h1, runLines, step_stimeLine, hv, h2]
  · intro stp now nt block L1 L2 v s1 s2 hproc hv h1 h2
    unfold job_from_qstat
    simp only [hproc, runLines_append, h1, runLines, step_estStartLine, hv,
      ite_self, h2]

/-- Witness for C8: each of the three fallback cases on a concrete block
with a following `Job_Name` line that is still parsed. -/
theorem claim_C8_witness :
    job_from_qstat stpNone 0 ("xfua".toList) blockW8a = .ok (some (finalize stateW8a)) ∧
    job_from_qstat stpNone 0 ("xfua".toList) blockW8b = .ok (some (finalize stateW8b)) ∧
    job_from_qstat stpNone 0 ("xfua".toList) blockW8c = .ok (some (finalize stateW8a)) := by
  refine ⟨?_, ?_, ?_⟩
  · exact claim_C8.1 stpNone 0 ("xfua".toList) blockW8a [] [nameLine ("hello".toList)]
      ("BAD".toList) (initState 0 blockW8a) stateW8a rfl rfl rfl rfl
  · exact claim_C8.2.1 stpNone 0 ("xfua".toList) blockW8b [] [nameLine ("hello".toList)]
      ("BAD".toList) (initState 0 blockW8b) stateW8b rfl rfl rfl rfl
  · exact claim_C8.2.2.1 stpNone 0 ("xfua".toList) blockW8c [] [nameLine ("hello".toList)]
      ("BAD".toList) (initState 0 blockW8c) stateW8a rfl rfl rfl rfl


/-- Claim C4 counterexample: the loop never processes a block's last line
(`split("\\n")[1:-1]`), so when the actual `exec_vnode` line is the last
line of the block, the node list is derived from the estimated assignment
even though an actual assignment is present in the block text. -/
theorem claim_C4_cex :
    processedLines blockC4 = [estExecLine ("(b:y)".toList)] ∧
    (pySplitChar '\n' blockC4).getD 2 [] = execLine ("(a:x)".toList) ∧
    (job_from_qstat stpNone 0 ("xfua".toList) blockC4).map (Option.map Job.exec_vnode) =
      .ok (some ["b".toList]) ∧
    cleanVnode ("(a:x)".toList) = ["a".toList] ∧
    (["b".toList] : List PyStr) ≠ ["a".toList] := by
  refine ⟨rfl, rfl, rfl, rfl, by decide⟩

/-- Claim C4, amended: among the processed lines of a block (all lines but
the first and last), when an actual `exec_vnode` attribute is present, the
parsed node list is derived from its value even if an estimated assignment
is also present, in either order of appearance; when only the estimated
assignment is present, the node list is derived from it.  (The surrounding
processed lines are assumed to be ordinary attribute lines of other names.) -/
theorem claim_C4 :
    (∀ (stp : PyStr → Option Int) (now : Int) (nt block : PyStr)
       (a b : PyStr) (L1 L2 L3 : List PyStr) (j : Job),
      processedLines block = L1 ++ execLine a :: (L2 ++ estExecLine b :: L3) →
      (∀ l ∈ L1, vnodeNeutral l = true) →
      (∀ l ∈ L2, vnodeNeutral l = true) →
      (∀ l ∈ L3, vnodeNeutral l = true) →
      job_from_qstat stp now nt block = .ok (some j) →
      j.exec_vnode = cleanVnode a) ∧
    (∀ (stp : PyStr → Option Int) (now : Int) (nt block : PyStr)
       (a b : PyStr) (L1 L2 L3 : List PyStr) (j : Job),
      processedLines block = L1 ++ estExecLine b :: (L2 ++ execLine a :: L3) →
      (∀ l ∈ L1, vnodeNeutral l = true) →
      (∀ l ∈ L2, vnodeNeutral l = true) →
      (∀ l ∈ L3, vnodeNeutral l = true) →
      job_from_qstat stp now nt block = .ok (some j) →
      j.exec_vnode = cleanVnode a) ∧
    (∀ (stp : PyStr → Option Int) (now : Int) (nt block : PyStr)
       (b : PyStr) (L1 L2 : List PyStr) (j : Job),
      processedLines block = L1 ++ estExecLine b :: L2 →
      (∀ l ∈ L1, vnodeNeutral l = true) →
      (∀ l ∈ L2, vnodeNeutral l = true) →
      job_from_qstat stp now nt block = .ok (some j) →
      j.exec_vnode = cleanVnode b) := by
  refine ⟨?_, ?_, ?_⟩
  · intro stp now nt block a b L1 L2 L3 j hproc hn1 hn2 hn3 hj
    obtain ⟨st, hrun, rfl⟩ := job_from_qstat_ok stp now nt block j hj
    rw [hproc] at hrun
    obtain ⟨s1, hA, hB⟩ := runLines_append_ok stp now nt L1 _ _ _ hrun
    simp only [runLines, step_execLine] at hB
    obtain ⟨s2, hC, hD⟩ := runLines_append_ok stp now nt L2 _ _ _ hB
    have h2 := runLines_neutral_inv stp now nt L2 _ _ hn2 hC
    simp only [runLines, step_estExecLine, h2.2, if_true] at hD
    have h3 := runLines_neutral_inv stp now nt L3 _ _ hn3 hD
    show cleanVnode st.est_vnode = cleanVnode a
    rw [h3.1, h2.1]
  · intro stp now nt block a b L1 L2 L3 j hproc hn1 hn2 hn3 hj
    obtain ⟨st, hrun, rfl⟩ := job_from_qstat_ok stp now nt block j hj
    rw [hproc] at hrun
    obtain ⟨s1, hA, hB⟩ := runLines_append_ok stp now nt L1 _ _ _ hrun
    simp only [runLines, step_estExecLine] at hB
    have h1 := runLines_neutral_inv stp now nt L1 _ _ hn1 hA
    have hflag : s1.exec_flag = false := by
      rw [h1.2]; rfl
    rw [hflag] at hB
    simp only [Bool.false_eq_true, if_false] at hB
    obtain ⟨s2, hC, hD⟩ := runLines_append_ok stp now nt L2 _ _ _ hB
    simp only [runLines, step_execLine] at hD
    have h3 := runLines_neutral_inv stp now nt L3 _ _ hn3 hD
    show cleanVnode st.est_vnode = cleanVnode a
    rw [h3.1]
  · intro stp now nt block b L1 L2 j hproc hn1 hn2 hj
    obtain ⟨st, hrun, rfl⟩ := job_from_qstat_ok stp now nt block j hj
    rw [hproc] at hrun
    obtain ⟨s1, hA, hB⟩ := runLines_append_ok stp now nt L1 _ _ _ hrun
    simp only [runLines, step_estExecLine] at hB
    have h1 := runLines_neutral_inv stp now nt L1 _ _ hn1 hA
    have hflag : s1.exec_flag = false := by
      rw [h1.2]; rfl
    rw [hflag] at hB
    simp only [Bool.false_eq_true, if_false] at hB
    have h2 := runLines_neutral_inv stp now nt L2 _ _ hn2 hB
    show cleanVnode st.est_vnode = cleanVnode b
    rw [h2.1]

/-- Witness for C4: both orders on concrete blocks yield the node list of
the actual assignment `(a:x)`. -/
theorem claim_C4_witness :
    jobW4.exec_vnode = cleanVnode ("(a:x)".toList) ∧
    jobW4.exec_vnode = cleanVnode ("(a:x)".toList) := by
  constructor
  · exact claim_C4.1 stpNone 0 ("xfua".toList) blockW4 ("(a:x)".toList) ("(b:y)".toList)
      [] [] [nameLine ("n".toList)] jobW4 rfl
      (by intro l hl; cases hl) (by intro l hl; cases hl)
      (by decide) rfl
  · exact claim_C4.2.1 stpNone 0 ("xfua".toList) blockW4b ("(a:x)".toList) ("(b:y)".toList)
      [] [] [nameLine ("n".toList)] jobW4 rfl
      (by intro l hl; cases hl) (by intro l hl; cases hl)
      (by decide) rfl

/-- Claim C5: the renderer's grouping step (`groupby` over `sorted` row
indices keyed by `n - next(count())`) partitions the sorted indices of a
finite set (a strictly increasing list) into the maximal contiguous runs,
one rectangle being drawn per run; in particular `{2,3,4,7,9,10}` yields
exactly the runs `(2,4)`, `(7,7)`, `(9,10)`. -/
theorem claim_C5 (l : List Nat) (h : List.Sorted (· < ·) l) :
    pyRanges l = runsOf l ∧
    (∀ ts te : ℚ, (rectsOfRanges ts te (pyRanges l)).length = (runsOf l).length) ∧
    pyRanges [2, 3, 4, 7, 9, 10] = [(2, 4), (7, 7), (9, 10)] := by
  have hm := pyRanges_sorted l h
  refine ⟨hm, ?_, ?_⟩
  · intro ts te
    rw [hm]
    simp [rectsOfRanges]
  · simp [pyRanges, pySorted, List.insertionSort, List.orderedInsert, keyFrom,
      groupPairs_cons, groupPairs_nil, toRange]

/-- Witness for C5 at the claim's row set. -/
theorem claim_C5_witness :
    pyRanges [2, 3, 4, 7, 9, 10] = runsOf [2, 3, 4, 7, 9, 10] ∧
    pyRanges [2, 3, 4, 7, 9, 10] = [(2, 4), (7, 7), (9, 10)] := by
  have h := claim_C5 [2, 3, 4, 7, 9, 10] (by decide)
  exact ⟨h.1, h.2.2⟩


/-- Claim C6: provided every assigned node name of a drawn job occurs in the
filtered inventory (otherwise `list.index` raises), the renderer draws job
rectangles exactly for the jobs whose parsed node list is nonempty and whose
state is not `'H'`, and every rectangle of such a job spans horizontally
from `(start - now)/3600` to `(start + walltime - now)/3600` hours, the
offset being negative for jobs that already started. -/
theorem claim_C6 (nodes : List PyStr) (now : Int) (jobs : List Job)
    (h : ∀ j ∈ jobs, jobDrawn j = true → ∀ nm ∈ j.exec_vnode, nm ∈ nodes) :
    ∃ out, plotJobRects nodes now jobs = .ok out ∧
      out.map Prod.fst = jobs.filter jobDrawn ∧
      ∀ p ∈ out, p.2 ≠ [] ∧ ∀ r ∈ p.2,
        r.x = hoursQ (p.1.start_time - now) ∧
        r.x + r.w = hoursQ (p.1.start_time + (p.1.walltime : Int) - now) ∧
        (p.1.start_time < now → r.x < 0) := by
  induction jobs with
  | nil => exact ⟨[], rfl, rfl, by simp⟩
  | cons job rest ih =>
    obtain ⟨out, hout, hmap, hprop⟩ := ih (fun j hj => h j (List.mem_cons_of_mem _ hj))
    by_cases hd : jobDrawn job = true
    · have hvne : job.exec_vnode ≠ [] := by
        unfold jobDrawn at hd
        simp only [Bool.and_eq_true, decide_eq_true_eq] at hd
        exact hd.1
      obtain ⟨rs, hrs, hne, hfacts⟩ :=
        jobRects_ok nodes now job (h job (List.mem_cons_self _ _) hd) hvne
      refine ⟨(job, rs) :: out, ?_, ?_, ?_⟩
      · simp only [plotJobRects, hd, if_true, hrs, hout]
      · simp [hmap, List.filter_cons, hd]
      · intro p hp
        rcases List.mem_cons.mp hp with he | hm
        · subst he
          exact ⟨hne, hfacts⟩
        · exact hprop p hm
    · refine ⟨out, ?_, ?_, hprop⟩
      · simp only [plotJobRects, hd, if_false]
        exact hout
      · simp [hmap, List.filter_cons, hd]


/-- Witness for C6: three nodes, one running job on rows 2 and 0 (drawn, two
rectangles, already started) and one held job (not drawn). -/
theorem claim_C6_witness :
    (∀ j ∈ [jobW6a, jobW6b], jobDrawn j = true → ∀ nm ∈ j.exec_vnode, nm ∈ nodesW6) ∧
    (∃ out, plotJobRects nodesW6 0 [jobW6a, jobW6b] = .ok out ∧
      out.map Prod.fst = [jobW6a, jobW6b].filter jobDrawn ∧
      ∀ p ∈ out, p.2 ≠ [] ∧ ∀ r ∈ p.2,
        r.x = hoursQ (p.1.start_time - 0) ∧
        r.x + r.w = hoursQ (p.1.start_time + (p.1.walltime : Int) - 0) ∧
        (p.1.start_time < 0 → r.x < 0)) :=
  ⟨by decide, claim_C6 nodesW6 0 [jobW6a, jobW6b] (by decide)⟩

end DrawJobs
